import Mathlib

/-!
Shallow embedding of the work-group scheduler in src/src/spirsim/WorkGroup.cpp
(spirsim::WorkGroup).  Event handles (uint64_t) and addresses/sizes (size_t)
are embedded as Nat; the std::map over event handles is an association list
kept sorted by key, the std::set of awaited handles a sorted duplicate-free
list.  The WorkItem stepping engine, the Memory class and clearBarrier are
collaborators whose code is not part of this translation unit; they are
modelled from the spec (see the doc comments on Mem, Witem and clearBarrier).
-/

namespace WorkGroup

/-- Direction of an async copy (WorkGroup.h AsyncCopyType). -/
inductive Direction
  | globalToLocal
  | localToGlobal
deriving DecidableEq, Repr

/-- WorkGroup::AsyncCopy: one bulk-copy request (instruction identity embedded
as a Nat tag, plus direction, destination address, source address, size). -/
structure AsyncCopy where
  instruction : Nat
  type : Direction
  dest : Nat
  src : Nat
  size : Nat
deriving DecidableEq, Repr

/-- WorkGroup::AsyncCopy::operator== (WorkGroup.cpp lines 287-295): two
descriptors are equal iff all five fields match. -/
def copyEq (a b : AsyncCopy) : Bool :=
  (a.instruction == b.instruction) &&
  (decide (a.type = b.type)) &&
  (a.dest == b.dest) &&
  (a.src == b.src) &&
  (a.size == b.size)

/-- The registry part of a WorkGroup: m_pendingEvents (std::map, sorted
association list), m_waitEvents (std::set, sorted list) and m_nextEvent. -/
structure EventState where
  pendingEvents : List (Nat × List AsyncCopy)
  waitEvents : List Nat
  nextEvent : Nat
deriving DecidableEq, Repr

/-- std::map::find on the pending-event map. -/
def mapFind : List (Nat × List AsyncCopy) → Nat → Option (List AsyncCopy)
  | [], _ => none
  | (k, v) :: rest, h => if h = k then some v else mapFind rest h

/-- std::map::operator[] assignment: insert or replace, keeping keys sorted. -/
def mapInsert : List (Nat × List AsyncCopy) → Nat → List AsyncCopy →
    List (Nat × List AsyncCopy)
  | [], h, v => [(h, v)]
  | (k, w) :: rest, h, v =>
    if h < k then (h, v) :: (k, w) :: rest
    else if h = k then (h, v) :: rest
    else (k, w) :: mapInsert rest h v

/-- std::map::erase by key. -/
def mapErase : List (Nat × List AsyncCopy) → Nat → List (Nat × List AsyncCopy)
  | [], _ => []
  | (k, w) :: rest, h => if h = k then rest else (k, w) :: mapErase rest h

/-- std::set::insert, keeping the list sorted and duplicate-free. -/
def setInsert : List Nat → Nat → List Nat
  | [], h => [h]
  | x :: xs, h =>
    if h < x then h :: x :: xs
    else if h = x then x :: xs
    else x :: setInsert xs h

/-- The scan in WorkGroup::async_copy (lines 75-86): walk the pending map in
key order and return the first handle owning a descriptor equal to the
request. -/
def findPending : List (Nat × List AsyncCopy) → AsyncCopy → Option Nat
  | [], _ => none
  | (k, l) :: rest, c =>
    if l.any (fun d => copyEq d c) then some k else findPending rest c

/-- WorkGroup::async_copy (lines 72-93): dedup against every pending
descriptor; otherwise allocate a fresh handle from m_nextEvent (the event
parameter is overwritten before use) and store a singleton list under it. -/
def async_copy (s : EventState) (copy : AsyncCopy) (event : Nat) :
    Nat × EventState :=
  match findPending s.pendingEvents copy with
  | some h => (h, s)
  | none =>
    let event := s.nextEvent
    (event,
      { s with
        nextEvent := s.nextEvent + 1,
        pendingEvents := mapInsert s.pendingEvents event [copy] })

/-- WorkGroup::wait_event (lines 280-285): assert the handle is pending
(embedded as the none result), then add it to m_waitEvents. -/
def wait_event (s : EventState) (event : Nat) : Option EventState :=
  match mapFind s.pendingEvents event with
  | none => none
  | some _ => some { s with waitEvents := setInsert s.waitEvents event }

/-- Modelled from the spec: the Memory collaborator (Memory.h, not in this
translation unit) as a total byte map; load and store are contiguous. -/
def Mem : Type := Nat → Nat

/-- Memory::load of size bytes from addr into a transient buffer. -/
def loadBytes (m : Mem) (addr n : Nat) : List Nat :=
  (List.range n).map fun i => m (addr + i)

/-- Memory::store of a buffer at addr, byte by byte. -/
def storeBytes (m : Mem) (addr : Nat) : List Nat → Mem
  | [] => m
  | b :: bs => storeBytes (fun x => if x = addr then b else m x) (addr + 1) bs

/-- The per-descriptor copy in WorkGroup::run (lines 234-252): pick
destination and source space by direction, load size bytes from src into a
buffer, store the buffer at dest.  Returns (global, local) memory. -/
def execCopy (gmem lmem : Mem) (c : AsyncCopy) : Mem × Mem :=
  match c.type with
  | .globalToLocal => (gmem, storeBytes lmem c.dest (loadBytes gmem c.src c.size))
  | .localToGlobal => (storeBytes gmem c.dest (loadBytes lmem c.src c.size), lmem)

/-- Execute a handle's descriptor list in registration order. -/
def execCopies (gmem lmem : Mem) : List AsyncCopy → Mem × Mem
  | [] => (gmem, lmem)
  | c :: cs =>
    let p := execCopy gmem lmem c
    execCopies p.1 p.2 cs

/-- The group-copy loop in WorkGroup::run (lines 227-255): for each awaited
handle in set order, run its descriptors and erase it from the pending map. -/
def fulfillEvents (pend : List (Nat × List AsyncCopy)) (gmem lmem : Mem) :
    List Nat → List (Nat × List AsyncCopy) × Mem × Mem
  | [] => (pend, gmem, lmem)
  | h :: hs =>
    let copies := (mapFind pend h).getD []
    let p := execCopies gmem lmem copies
    fulfillEvents (mapErase pend h) p.1 p.2 hs

/-- WorkItem::State as read by the scheduler. -/
inductive WIState
  | READY
  | BARRIER
  | WAIT_EVENT
  | FINISHED
deriving DecidableEq, Repr

/-- Exit state of one run-to-completion slice of a work-item: the inner while
loop of run() (lines 170-173) steps a READY item until it suspends at a
barrier, suspends at an event wait, or finishes. -/
inductive Suspend
  | atBarrier
  | atWaitEvent
  | done
deriving DecidableEq, Repr

/-- The WorkItem state a slice exit corresponds to; never READY. -/
def Suspend.toState : Suspend → WIState
  | .atBarrier => .BARRIER
  | .atWaitEvent => .WAIT_EVENT
  | .done => .FINISHED

/-- Modelled from the spec: a call a stepping work-item makes into the
Work-Group (its only mutating entry points are the async-copy request and the
event wait, spec section 6). -/
inductive WIAction
  | copyAction (c : AsyncCopy) (event : Nat)
  | waitAction (event : Nat)
deriving DecidableEq, Repr

/-- Modelled from the spec: one run-to-completion slice of kernel work — the
group-visible calls it performs followed by the state it exits into. -/
structure Phase where
  actions : List WIAction
  suspend : Suspend
deriving DecidableEq, Repr

/-- Modelled from the spec: the WorkItem collaborator (stepping engine out of
scope), reduced to its scheduler-visible interface: a state and a script of
run-to-completion slices. -/
structure Witem where
  state : WIState
  prog : List Phase
deriving DecidableEq, Repr

/-- Modelled from the spec: WorkItem::clearBarrier, the release operation that
puts a suspended item back to READY. -/
def clearBarrier (w : Witem) : Witem := { w with state := .READY }

/-- Perform a slice's group-visible calls in order; an event wait on an absent
handle is the fatal assertion in wait_event (none). -/
def runActions (es : EventState) : List WIAction → Option EventState
  | [] => some es
  | .copyAction c ev :: rest => runActions (async_copy es c ev).2 rest
  | .waitAction ev :: rest =>
    match wait_event es ev with
    | none => none
    | some es' => runActions es' rest

/-- The inner while loop of run() (lines 170-173) on one READY item: consume
the next slice of its script and move to that slice's exit state; an item with
an exhausted script finishes. -/
def stepItem (w : Witem) (es : EventState) : Option (Witem × EventState) :=
  match w.prog with
  | [] => some ({ w with state := .FINISHED }, es)
  | ph :: rest =>
    match runActions es ph.actions with
    | none => none
    | some es' => some (⟨ph.suspend.toState, rest⟩, es')

/-- Result of one pass of run() over the items (lines 147-203): the items
after the pass, the three tallies of this pass, and the event state. -/
structure PassResult where
  items : List Witem
  numBarriers : Nat
  numWaitEvents : Nat
  numFinished : Nat
  events : EventState
deriving DecidableEq, Repr

/-- One pass of run() (lines 147-203): visit items in ascending linear-index
order (the list order); skip items not READY at visit time; step a READY item
to its next suspension and tally the state it exits into. -/
def passLoop : List Witem → EventState → Option PassResult
  | [], es => some ⟨[], 0, 0, 0, es⟩
  | w :: ws, es =>
    if w.state = .READY then
      match stepItem w es with
      | none => none
      | some (w', es') =>
        match passLoop ws es' with
        | none => none
        | some pr =>
          some ⟨w' :: pr.items,
            (if w'.state = .BARRIER then 1 else 0) + pr.numBarriers,
            (if w'.state = .WAIT_EVENT then 1 else 0) + pr.numWaitEvents,
            (if w'.state = .FINISHED then 1 else 0) + pr.numFinished,
            pr.events⟩
    else
      match passLoop ws es with
      | none => none
      | some pr =>
        some ⟨w :: pr.items, pr.numBarriers, pr.numWaitEvents,
          pr.numFinished, pr.events⟩

/-- The scheduler state run() acts on: the item array in linear-index order,
the event registry, and the two memory spaces. -/
structure WG where
  items : List Witem
  events : EventState
  globalMem : Mem
  localMem : Mem

/-- Observable outcome of run(): normal completion, one of the two divergence
diagnostics printed before the early return (lines 220 and 269), the fatal
assertion in wait_event, or exhaustion of the recursion fuel (never reached
from a well-formed start, see the termination theorem). -/
inductive RunResult
  | completed
  | barrierDivergence
  | waitEventDivergence
  | assertFailure
  | outOfFuel
deriving DecidableEq, Repr

/-- Outcome of one iteration of the outer while loop of run(). -/
inductive IterOut
  | next (g : WG) (nf : Nat)
  | stop (r : RunResult) (g : WG)
  | abort

/-- The event-wait convergence check (lines 224-271): on full convergence,
perform the group copies for every awaited handle, clear m_waitEvents and
release every item; on partial convergence, stop with the event-wait
divergence diagnostic. -/
def waitCheck (t nw : Nat) (items : List Witem) (es : EventState)
    (gmem lmem : Mem) (nf : Nat) : IterOut :=
  if nw = t then
    let p := fulfillEvents es.pendingEvents gmem lmem es.waitEvents
    let es' : EventState :=
      { pendingEvents := p.1, waitEvents := [], nextEvent := es.nextEvent }
    .next ⟨items.map clearBarrier, es', p.2.1, p.2.2⟩ nf
  else if 0 < nw then
    .stop .waitEventDivergence ⟨items, es, gmem, lmem⟩
  else
    .next ⟨items, es, gmem, lmem⟩ nf

/-- One iteration of the outer while loop of run() (lines 144-272): a pass,
then the barrier convergence check (lines 207-222), then the event-wait
convergence check. -/
def runIter (g : WG) (nf : Nat) : IterOut :=
  match passLoop g.items g.events with
  | none => .abort
  | some pr =>
    let t := g.items.length
    let nf' := nf + pr.numFinished
    if pr.numBarriers = t then
      waitCheck t pr.numWaitEvents (pr.items.map clearBarrier) pr.events
        g.globalMem g.localMem nf'
    else if 0 < pr.numBarriers then
      .stop .barrierDivergence ⟨pr.items, pr.events, g.globalMem, g.localMem⟩
    else
      waitCheck t pr.numWaitEvents pr.items pr.events
        g.globalMem g.localMem nf'

/-- The outer while loop of run() (line 144), fuelled: numFinished
accumulates across passes and the loop exits once it reaches the item
count. -/
def runLoop : Nat → WG → Nat → RunResult × WG
  | 0, g, _ => (.outOfFuel, g)
  | fuel + 1, g, nf =>
    if nf < g.items.length then
      match runIter g nf with
      | .abort => (.assertFailure, g)
      | .stop r g' => (r, g')
      | .next g' nf' => runLoop fuel g' nf'
    else (.completed, g)

/-- Total script length over the items, part of the fuel bound. -/
def sumProg : List Witem → Nat
  | [] => 0
  | w :: ws => w.prog.length + sumProg ws

/-- Number of FINISHED items. -/
def countFin : List Witem → Nat
  | [] => 0
  | w :: ws => (if w.state = .FINISHED then 1 else 0) + countFin ws

/-- Fuel that provably suffices for run() to reach its own exit. -/
def runFuel (g : WG) : Nat := sumProg g.items + g.items.length + 1

/-- WorkGroup::run (lines 138-278) from a freshly constructed group:
numFinished starts at 0. -/
def run (g : WG) : RunResult × WG := runLoop (runFuel g) g 0

/-- The linear index used both at construction (line 52) and, through the
array layout, for scheduling order. -/
def linIdx (gx gy i j k : Nat) : Nat := i + (j + k * gy) * gx

/-- Write at a position of a list, out-of-range writes ignored (the
constructor only writes in range). -/
def setAt : List Witem → Nat → Witem → List Witem
  | [], _, _ => []
  | _ :: xs, 0, v => v :: xs
  | x :: xs, n + 1, v => x :: setAt xs n v

/-- The coordinate sequence of the construction loops (lines 45-55): k outer,
j middle, i inner. -/
def coordList (gx gy gz : Nat) : List (Nat × Nat × Nat) :=
  (List.range gz).flatMap fun k =>
    (List.range gy).flatMap fun j =>
      (List.range gx).map fun i => (i, j, k)

/-- Placeholder for an uninitialised array slot (new WorkItem*[n] before the
loops run); the indexing theorem shows it is always overwritten. -/
def defaultItem : Witem := ⟨.READY, []⟩

/-- The work-item array built by the constructor (lines 43-55): every
coordinate's item is stored at its linear index. -/
def initItems (f : Nat → Nat → Nat → Witem) (gx gy gz : Nat) : List Witem :=
  (coordList gx gy gz).foldl
    (fun arr c => setAt arr (linIdx gx gy c.1 c.2.1 c.2.2) (f c.1 c.2.1 c.2.2))
    (List.replicate (gx * gy * gz) defaultItem)

/-- The registry as the constructor leaves it: empty map, empty set,
m_nextEvent = 1 (line 57). -/
def initEvents : EventState := ⟨[], [], 1⟩

/-- WorkGroup constructor (lines 21-58), restricted to the scheduler-visible
state: f gives the item constructed for coordinate (i, j, k). -/
def mkWorkGroup (f : Nat → Nat → Nat → Witem) (gx gy gz : Nat)
    (gmem lmem : Mem) : WG :=
  ⟨initItems f gx gy gz, initEvents, gmem, lmem⟩

/-- One registry-touching operation of a group's lifetime, for the
handle-monotonicity invariant: an async-copy request, an event wait, or the
group-copy block of run(). -/
inductive WGOp
  | opCopy (c : AsyncCopy) (ev : Nat)
  | opWait (ev : Nat)
  | opFulfill
deriving DecidableEq, Repr

/-- Apply one lifetime operation to (registry, global, local) state; returns
the handle allocated by a non-deduplicated async-copy request, if any. -/
def applyOp (s : EventState × Mem × Mem) : WGOp →
    (EventState × Mem × Mem) × Option Nat
  | .opCopy c ev =>
    let r := async_copy s.1 c ev
    ((r.2, s.2), if (findPending s.1.pendingEvents c).isNone then some r.1 else none)
  | .opWait ev =>
    match wait_event s.1 ev with
    | none => (s, none)
    | some es' => ((es', s.2), none)
  | .opFulfill =>
    let p := fulfillEvents s.1.pendingEvents s.2.1 s.2.2 s.1.waitEvents
    ((⟨p.1, [], s.1.nextEvent⟩, p.2.1, p.2.2), none)

/-- Apply a lifetime trace of operations, collecting allocated handles in
order. -/
def runOps (s : EventState × Mem × Mem) : List WGOp →
    (EventState × Mem × Mem) × List Nat
  | [] => (s, [])
  | op :: ops =>
    let r := applyOp s op
    let r' := runOps r.1 ops
    (r'.1, r.2.toList ++ r'.2)

/-- Sample global memory for the concrete scenarios. -/
def gmem0 : Mem := fun a => (a + 3) % 256

/-- Sample local memory for the concrete scenarios. -/
def lmem0 : Mem := fun _ => 0

/-- The async copy of the spec scenario: GLOBAL_TO_LOCAL, 16 bytes from
global address 0 to local address 100. -/
def copy0 : AsyncCopy := ⟨0, .globalToLocal, 100, 0, 16⟩

/-- A work-item script that requests copy0, awaits the returned handle (1 on
every item of a fresh group: the first request allocates it, later identical
requests dedup to it), then finishes. -/
def itemCopyAwait : Witem :=
  ⟨.READY, [⟨[.copyAction copy0 0, .waitAction 1], .atWaitEvent⟩, ⟨[], .done⟩]⟩

/-- A group of two items that both copy, await and finish: completes. -/
def gComplete : WG := ⟨[itemCopyAwait, itemCopyAwait], initEvents, gmem0, lmem0⟩

/-- A group of two items where only the first reaches a barrier. -/
def gBarDiv : WG :=
  ⟨[⟨.READY, [⟨[], .atBarrier⟩]⟩, ⟨.READY, [⟨[], .done⟩]⟩],
    initEvents, gmem0, lmem0⟩

/-- A group of two items where only the first reaches an event wait. -/
def gWaitDiv : WG :=
  ⟨[⟨.READY, [⟨[], .atWaitEvent⟩]⟩, ⟨.READY, [⟨[], .done⟩]⟩],
    initEvents, gmem0, lmem0⟩

/-- A group whose single item awaits a handle nobody created. -/
def gBadHandle : WG :=
  ⟨[⟨.READY, [⟨[.waitAction 5], .atWaitEvent⟩]⟩], initEvents, gmem0, lmem0⟩

/-- A three-item group where in the same pass one item reaches a barrier, one
reaches an event wait and one finishes: every step makes progress, the
event-wait tally is strictly between 0 and 3, yet the barrier check fires
first. -/
def gMixed : WG :=
  ⟨[⟨.READY, [⟨[], .atBarrier⟩]⟩,
    ⟨.READY, [⟨[], .atWaitEvent⟩]⟩,
    ⟨.READY, [⟨[], .done⟩]⟩],
    initEvents, gmem0, lmem0⟩

/-- A one-item group that reaches one barrier and then finishes. -/
def gOneBarrier : WG :=
  ⟨[⟨.READY, [⟨[], .atBarrier⟩, ⟨[], .done⟩]⟩], initEvents, gmem0, lmem0⟩

/-- A concrete coordinate-distinguishing work-item family for exercising the
constructor: the script length encodes the coordinate. -/
def coordItem (i j k : Nat) : Witem :=
  ⟨.READY, List.replicate (i + 10 * j + 100 * k) ⟨[], .done⟩⟩

/-- Sorted-key invariant of the std::map embedding. -/
def sortedKeys (p : List (Nat × List AsyncCopy)) : Prop :=
  List.Pairwise (· < ·) (p.map Prod.fst)

/-- Loop invariant of run(): at the top of the outer while loop every item is
READY or FINISHED (suspended items never survive an iteration) and the local
numFinished counter equals the number of FINISHED items. -/
def Inv (g : WG) (nf : Nat) : Prop :=
  (∀ w ∈ g.items, w.state = .READY ∨ w.state = .FINISHED) ∧
  nf = countFin g.items

/-- Termination measure for the outer while loop: remaining script length
plus the number of unfinished items. -/
def wgMeasure (g : WG) : Nat :=
  sumProg g.items + (g.items.length - countFin g.items)

theorem copyEq_iff {a b : AsyncCopy} : copyEq a b = true ↔ a = b := by
  cases a; cases b
  simp [copyEq, AsyncCopy.mk.injEq, and_assoc]

theorem mapFind_eq_none_iff {p : List (Nat × List AsyncCopy)} {h : Nat} :
    mapFind p h = none ↔ ∀ kv ∈ p, h ≠ kv.1 := by
  induction p with
  | nil => simp [mapFind]
  | cons kv rest ih =>
    obtain ⟨k, v⟩ := kv
    by_cases hk : h = k <;> simp [mapFind, hk, ih]

theorem mapFind_mapInsert_self (p : List (Nat × List AsyncCopy)) (k : Nat)
    (v : List AsyncCopy) : mapFind (mapInsert p k v) k = some v := by
  induction p with
  | nil => simp [mapInsert, mapFind]
  | cons kv rest ih =>
    obtain ⟨k', v'⟩ := kv
    by_cases h1 : k < k'
    · simp [mapInsert, h1, mapFind]
    · by_cases h2 : k = k' <;> simp [mapInsert, h1, h2, mapFind, ih]

theorem mapFind_mapInsert_ne (p : List (Nat × List AsyncCopy)) (k h : Nat)
    (v : List AsyncCopy) (hne : h ≠ k) :
    mapFind (mapInsert p k v) h = mapFind p h := by
  induction p with
  | nil => simp [mapInsert, mapFind, hne]
  | cons kv rest ih =>
    obtain ⟨k', v'⟩ := kv
    by_cases h1 : k < k'
    · simp [mapInsert, h1, mapFind, hne]
    · by_cases h2 : k = k'
      · subst h2
        simp [mapInsert, h1, mapFind, hne]
      · by_cases h3 : h = k' <;> simp [mapInsert, h1, h2, mapFind, h3, ih]

theorem mapErase_sublist (p : List (Nat × List AsyncCopy)) (h : Nat) :
    List.Sublist (mapErase p h) p := by
  induction p with
  | nil => simp [mapErase]
  | cons kv rest ih =>
    obtain ⟨k, v⟩ := kv
    by_cases hk : h = k
    · simpa [mapErase, hk] using List.sublist_cons_self (k, v) rest
    · simpa [mapErase, hk] using List.Sublist.cons₂ (k, v) ih

theorem sortedKeys_mapErase {p : List (Nat × List AsyncCopy)} (h : Nat)
    (hs : sortedKeys p) : sortedKeys (mapErase p h) :=
  List.Pairwise.sublist (List.Sublist.map Prod.fst (mapErase_sublist p h)) hs

theorem mapFind_mapErase_none {p : List (Nat × List AsyncCopy)} {h : Nat}
    (h' : Nat) (hn : mapFind p h = none) :
    mapFind (mapErase p h') h = none := by
  rw [mapFind_eq_none_iff] at hn ⊢
  exact fun kv hkv => hn kv ((mapErase_sublist p h').mem hkv)

theorem mapFind_mapErase_self {p : List (Nat × List AsyncCopy)} {h : Nat}
    (hs : sortedKeys p) : mapFind (mapErase p h) h = none := by
  induction p with
  | nil => simp [mapErase, mapFind]
  | cons kv rest ih =>
    obtain ⟨k, v⟩ := kv
    unfold sortedKeys at hs
    simp only [List.map_cons, List.pairwise_cons] at hs
    by_cases hk : h = k
    · subst hk
      rw [mapErase, if_pos rfl, mapFind_eq_none_iff]
      intro kv hkv
      exact Nat.ne_of_lt (hs.1 kv.1 (List.mem_map_of_mem Prod.fst hkv))
    · rw [mapErase, if_neg hk, mapFind, if_neg hk]
      exact ih hs.2

theorem mem_setInsert {l : List Nat} {h y : Nat} (hy : y ∈ setInsert l h) :
    y = h ∨ y ∈ l := by
  induction l with
  | nil => simpa [setInsert] using hy
  | cons x xs ih =>
    by_cases h1 : h < x
    · simp only [setInsert, if_pos h1, List.mem_cons] at hy
      rcases hy with hy | hy | hy <;> simp [hy]
    · by_cases h2 : h = x
      · simp only [setInsert, if_neg h1, if_pos h2, List.mem_cons] at hy
        rcases hy with hy | hy <;> simp [hy]
      · simp only [setInsert, if_neg h1, if_neg h2, List.mem_cons] at hy
        rcases hy with hy | hy
        · simp [hy]
        · rcases ih hy with hy | hy <;> simp [hy]

theorem mem_setInsert_self (l : List Nat) (h : Nat) : h ∈ setInsert l h := by
  induction l with
  | nil => simp [setInsert]
  | cons x xs ih =>
    by_cases h1 : h < x
    · simp [setInsert, h1]
    · by_cases h2 : h = x <;> simp [setInsert, h1, h2, ih]

theorem setInsert_pairwise {l : List Nat} (h : Nat)
    (hl : List.Pairwise (· < ·) l) :
    List.Pairwise (· < ·) (setInsert l h) := by
  induction l with
  | nil => simp [setInsert]
  | cons x xs ih =>
    simp only [List.pairwise_cons] at hl
    by_cases h1 : h < x
    · rw [setInsert, if_pos h1]
      exact List.Pairwise.cons
        (by
          intro y hy
          rw [List.mem_cons] at hy
          rcases hy with hy | hy
          · simpa [hy] using h1
          · exact Nat.lt_trans h1 (hl.1 y hy))
        (List.Pairwise.cons hl.1 hl.2)
    · by_cases h2 : h = x
      · rw [setInsert, if_neg h1, if_pos h2]
        exact List.Pairwise.cons hl.1 hl.2
      · rw [setInsert, if_neg h1, if_neg h2]
        have hx : x < h := by omega
        exact List.Pairwise.cons
          (by
            intro y hy
            rcases mem_setInsert hy with hy | hy
            · simpa [hy] using hx
            · exact hl.1 y hy)
          (ih hl.2)

theorem setInsert_idem (l : List Nat) (h : Nat) :
    setInsert (setInsert l h) h = setInsert l h := by
  induction l with
  | nil => simp [setInsert]
  | cons x xs ih =>
    by_cases h1 : h < x
    · simp [setInsert, h1, lt_irrefl]
    · by_cases h2 : h = x
      · simp [setInsert, h1, h2]
      · simp [setInsert, h1, h2, ih]

theorem storeBytes_lt (bs : List Nat) : ∀ (m : Mem) (a x : Nat), x < a →
    storeBytes m a bs x = m x := by
  induction bs with
  | nil => intro m a x _; rfl
  | cons b bs ih =>
    intro m a x hx
    rw [storeBytes, ih _ _ _ (Nat.lt_succ_of_lt hx)]
    simp [Nat.ne_of_lt hx]

theorem storeBytes_ge (bs : List Nat) : ∀ (m : Mem) (a x : Nat),
    a + bs.length ≤ x → storeBytes m a bs x = m x := by
  induction bs with
  | nil => intro m a x _; rfl
  | cons b bs ih =>
    intro m a x hx
    simp only [List.length_cons] at hx
    rw [storeBytes, ih _ _ _ (by omega)]
    have : x ≠ a := by omega
    simp [this]

theorem storeBytes_at (bs : List Nat) : ∀ (m : Mem) (a i : Nat),
    i < bs.length → storeBytes m a bs (a + i) = bs.getD i 0 := by
  induction bs with
  | nil => intro m a i hi; simp at hi
  | cons b bs ih =>
    intro m a i hi
    cases i with
    | zero =>
      rw [Nat.add_zero, storeBytes, storeBytes_lt _ _ _ _ (Nat.lt_succ_self a)]
      simp
    | succ i =>
      have harr : a + (i + 1) = (a + 1) + i := by omega
      rw [storeBytes, harr, ih _ _ _ (by simpa using hi)]
      simp

theorem loadBytes_length (m : Mem) (a n : Nat) : (loadBytes m a n).length = n := by
  simp [loadBytes]

theorem loadBytes_getD (m : Mem) (a n i : Nat) (hi : i < n) :
    (loadBytes m a n).getD i 0 = m (a + i) := by
  simp [loadBytes, List.getD, List.getElem?_map, List.getElem?_range, hi]

theorem execCopy_g2l_at (gmem lmem : Mem) (c : AsyncCopy)
    (hdir : c.type = .globalToLocal) (i : Nat) (hi : i < c.size) :
    (execCopy gmem lmem c).2 (c.dest + i) = gmem (c.src + i) := by
  rw [execCopy, hdir]
  simp only
  rw [storeBytes_at _ _ _ _ (by simpa [loadBytes_length] using hi),
    loadBytes_getD _ _ _ _ hi]

theorem execCopy_g2l_out (gmem lmem : Mem) (c : AsyncCopy)
    (hdir : c.type = .globalToLocal) (x : Nat)
    (hx : x < c.dest ∨ c.dest + c.size ≤ x) :
    (execCopy gmem lmem c).2 x = lmem x := by
  rw [execCopy, hdir]
  simp only
  rcases hx with hx | hx
  · exact storeBytes_lt _ _ _ _ hx
  · exact storeBytes_ge _ _ _ _ (by simpa [loadBytes_length] using hx)

theorem execCopy_g2l_global (gmem lmem : Mem) (c : AsyncCopy)
    (hdir : c.type = .globalToLocal) : (execCopy gmem lmem c).1 = gmem := by
  rw [execCopy, hdir]

theorem execCopy_l2g_at (gmem lmem : Mem) (c : AsyncCopy)
    (hdir : c.type = .localToGlobal) (i : Nat) (hi : i < c.size) :
    (execCopy gmem lmem c).1 (c.dest + i) = lmem (c.src + i) := by
  rw [execCopy, hdir]
  simp only
  rw [storeBytes_at _ _ _ _ (by simpa [loadBytes_length] using hi),
    loadBytes_getD _ _ _ _ hi]

theorem execCopy_l2g_local (gmem lmem : Mem) (c : AsyncCopy)
    (hdir : c.type = .localToGlobal) : (execCopy gmem lmem c).2 = lmem := by
  rw [execCopy, hdir]

theorem fulfillEvents_find_none (ws : List Nat) :
    ∀ (pend : List (Nat × List AsyncCopy)) (gmem lmem : Mem) (h : Nat),
    mapFind pend h = none →
    mapFind (fulfillEvents pend gmem lmem ws).1 h = none := by
  induction ws with
  | nil => intro pend gmem lmem h hn; exact hn
  | cons h0 hs ih =>
    intro pend gmem lmem h hn
    rw [fulfillEvents]
    exact ih _ _ _ _ (mapFind_mapErase_none h0 hn)

theorem fulfillEvents_sorted (ws : List Nat) :
    ∀ (pend : List (Nat × List AsyncCopy)) (gmem lmem : Mem),
    sortedKeys pend → sortedKeys (fulfillEvents pend gmem lmem ws).1 := by
  induction ws with
  | nil => intro pend gmem lmem hs; exact hs
  | cons h0 hs ih =>
    intro pend gmem lmem hsk
    rw [fulfillEvents]
    exact ih _ _ _ (sortedKeys_mapErase h0 hsk)

theorem fulfillEvents_erased (ws : List Nat) :
    ∀ (pend : List (Nat × List AsyncCopy)) (gmem lmem : Mem),
    sortedKeys pend → ∀ h ∈ ws,
    mapFind (fulfillEvents pend gmem lmem ws).1 h = none := by
  induction ws with
  | nil => intro pend gmem lmem _ h hh; simp at hh
  | cons h0 hs ih =>
    intro pend gmem lmem hsk h hh
    rw [List.mem_cons] at hh
    rw [fulfillEvents]
    rcases hh with hh | hh
    · subst hh
      exact fulfillEvents_find_none hs _ _ _ _ (mapFind_mapErase_self hsk)
    · exact ih _ _ _ (sortedKeys_mapErase h0 hsk) h hh

theorem stepItem_state {w : Witem} {es : EventState} {w' : Witem}
    {es' : EventState} (h : stepItem w es = some (w', es')) :
    w'.state = .FINISHED ∨ w'.state = .BARRIER ∨ w'.state = .WAIT_EVENT := by
  rw [stepItem] at h
  cases hp : w.prog with
  | nil =>
    rw [hp] at h
    simp only [Option.some.injEq, Prod.mk.injEq] at h
    simp [← h.1]
  | cons ph rest =>
    rw [hp] at h
    simp only at h
    cases hact : runActions es ph.actions with
    | none => rw [hact] at h; simp at h
    | some es'' =>
      rw [hact] at h
      simp only [Option.some.injEq, Prod.mk.injEq] at h
      rw [← h.1]
      cases ph.suspend <;> simp [Suspend.toState]

theorem stepItem_ne_ready {w : Witem} {es : EventState} {w' : Witem}
    {es' : EventState} (h : stepItem w es = some (w', es')) :
    w'.state ≠ .READY := by
  rcases stepItem_state h with h' | h' | h' <;> simp [h']

theorem passLoop_length : ∀ (items : List Witem) (es : EventState)
    (pr : PassResult), passLoop items es = some pr →
    pr.items.length = items.length := by
  intro items
  induction items with
  | nil =>
    intro es pr h
    simp only [passLoop, Option.some.injEq] at h
    subst h
    rfl
  | cons w ws ih =>
    intro es pr h
    rw [passLoop] at h
    by_cases hw : w.state = .READY
    · rw [if_pos hw] at h
      cases hstep : stepItem w es with
      | none => rw [hstep] at h; simp at h
      | some p =>
        obtain ⟨w', es'⟩ := p
        rw [hstep] at h
        simp only at h
        cases hrec : passLoop ws es' with
        | none => rw [hrec] at h; simp at h
        | some pr' =>
          rw [hrec] at h
          simp only [Option.some.injEq] at h
          subst h
          simp [ih es' pr' hrec]
    · rw [if_neg hw] at h
      cases hrec : passLoop ws es with
      | none => rw [hrec] at h; simp at h
      | some pr' =>
        rw [hrec] at h
        simp only [Option.some.injEq] at h
        subst h
        simp [ih es pr' hrec]

theorem stepItem_cases {w : Witem} {es : EventState} {w' : Witem}
    {es' : EventState} (h : stepItem w es = some (w', es')) :
    (w.prog = [] ∧ w'.prog = [] ∧ w'.state = .FINISHED) ∨
    (∃ ph rest, w.prog = ph :: rest ∧ w'.prog = rest ∧
      w'.state = ph.suspend.toState) := by
  rw [stepItem] at h
  cases hp : w.prog with
  | nil =>
    rw [hp] at h
    simp only [Option.some.injEq, Prod.mk.injEq] at h
    exact Or.inl ⟨rfl, by simp [← h.1, hp], by simp [← h.1]⟩
  | cons ph rest =>
    rw [hp] at h
    simp only at h
    cases hact : runActions es ph.actions with
    | none => rw [hact] at h; simp at h
    | some es'' =>
      rw [hact] at h
      simp only [Option.some.injEq, Prod.mk.injEq] at h
      exact Or.inr ⟨ph, rest, rfl, by simp [← h.1], by simp [← h.1]⟩

theorem passLoop_counts_le : ∀ (items : List Witem) (es : EventState)
    (pr : PassResult), passLoop items es = some pr →
    pr.numBarriers + pr.numWaitEvents + pr.numFinished ≤ items.length := by
  intro items
  induction items with
  | nil =>
    intro es pr h
    simp only [passLoop, Option.some.injEq] at h
    subst h
    simp
  | cons w ws ih =>
    intro es pr h
    rw [passLoop] at h
    by_cases hw : w.state = .READY
    · rw [if_pos hw] at h
      cases hstep : stepItem w es with
      | none => rw [hstep] at h; simp at h
      | some p =>
        obtain ⟨w', es'⟩ := p
        rw [hstep] at h
        simp only at h
        cases hrec : passLoop ws es' with
        | none => rw [hrec] at h; simp at h
        | some pr' =>
          rw [hrec] at h
          simp only [Option.some.injEq] at h
          subst h
          have hih := ih es' pr' hrec
          simp only [List.length_cons]
          rcases stepItem_state hstep with h' | h' | h' <;> simp [h'] <;> omega
    · rw [if_neg hw] at h
      cases hrec : passLoop ws es with
      | none => rw [hrec] at h; simp at h
      | some pr' =>
        rw [hrec] at h
        simp only [Option.some.injEq] at h
        subst h
        have hih := ih es pr' hrec
        simp only [List.length_cons]
        omega

theorem passLoop_barrier_all : ∀ (items : List Witem) (es : EventState)
    (pr : PassResult), passLoop items es = some pr →
    pr.numBarriers = items.length →
    ∀ w ∈ pr.items, w.state = .BARRIER := by
  intro items
  induction items with
  | nil =>
    intro es pr h _
    simp only [passLoop, Option.some.injEq] at h
    subst h
    simp
  | cons w ws ih =>
    intro es pr h hb
    rw [passLoop] at h
    by_cases hw : w.state = .READY
    · rw [if_pos hw] at h
      cases hstep : stepItem w es with
      | none => rw [hstep] at h; simp at h
      | some p =>
        obtain ⟨w', es'⟩ := p
        rw [hstep] at h
        simp only at h
        cases hrec : passLoop ws es' with
        | none => rw [hrec] at h; simp at h
        | some pr' =>
          rw [hrec] at h
          simp only [Option.some.injEq] at h
          subst h
          have hle := passLoop_counts_le ws es' pr' hrec
          simp only [List.length_cons] at hb
          by_cases hbar : w'.state = .BARRIER
          · rw [if_pos hbar] at hb
            intro x hx
            rcases List.mem_cons.mp hx with hx | hx
            · simp [hx, hbar]
            · exact ih es' pr' hrec (by omega) x hx
          · rw [if_neg hbar] at hb
            exact absurd hb (by omega)
    · rw [if_neg hw] at h
      cases hrec : passLoop ws es with
      | none => rw [hrec] at h; simp at h
      | some pr' =>
        rw [hrec] at h
        simp only [Option.some.injEq] at h
        subst h
        have hle := passLoop_counts_le ws es pr' hrec
        simp only [List.length_cons] at hb
        exact absurd hb (by omega)

theorem passLoop_wait_all : ∀ (items : List Witem) (es : EventState)
    (pr : PassResult), passLoop items es = some pr →
    pr.numWaitEvents = items.length →
    ∀ w ∈ pr.items, w.state = .WAIT_EVENT := by
  intro items
  induction items with
  | nil =>
    intro es pr h _
    simp only [passLoop, Option.some.injEq] at h
    subst h
    simp
  | cons w ws ih =>
    intro es pr h hb
    rw [passLoop] at h
    by_cases hw : w.state = .READY
    · rw [if_pos hw] at h
      cases hstep : stepItem w es with
      | none => rw [hstep] at h; simp at h
      | some p =>
        obtain ⟨w', es'⟩ := p
        rw [hstep] at h
        simp only at h
        cases hrec : passLoop ws es' with
        | none => rw [hrec] at h; simp at h
        | some pr' =>
          rw [hrec] at h
          simp only [Option.some.injEq] at h
          subst h
          have hle := passLoop_counts_le ws es' pr' hrec
          simp only [List.length_cons] at hb
          by_cases hwt : w'.state = .WAIT_EVENT
          · rw [if_pos hwt] at hb
            intro x hx
            rcases List.mem_cons.mp hx with hx | hx
            · simp [hx, hwt]
            · exact ih es' pr' hrec (by omega) x hx
          · rw [if_neg hwt] at hb
            exact absurd hb (by omega)
    · rw [if_neg hw] at h
      cases hrec : passLoop ws es with
      | none => rw [hrec] at h; simp at h
      | some pr' =>
        rw [hrec] at h
        simp only [Option.some.injEq] at h
        subst h
        have hle := passLoop_counts_le ws es pr' hrec
        simp only [List.length_cons] at hb
        exact absurd hb (by omega)

theorem passLoop_not_ready : ∀ (items : List Witem) (es : EventState)
    (pr : PassResult), passLoop items es = some pr →
    ∀ w ∈ pr.items, w.state ≠ .READY := by
  intro items
  induction items with
  | nil =>
    intro es pr h
    simp only [passLoop, Option.some.injEq] at h
    subst h
    simp
  | cons w ws ih =>
    intro es pr h
    rw [passLoop] at h
    by_cases hw : w.state = .READY
    · rw [if_pos hw] at h
      cases hstep : stepItem w es with
      | none => rw [hstep] at h; simp at h
      | some p =>
        obtain ⟨w', es'⟩ := p
        rw [hstep] at h
        simp only at h
        cases hrec : passLoop ws es' with
        | none => rw [hrec] at h; simp at h
        | some pr' =>
          rw [hrec] at h
          simp only [Option.some.injEq] at h
          subst h
          intro x hx
          rcases List.mem_cons.mp hx with hx | hx
          · rw [hx]; exact stepItem_ne_ready hstep
          · exact ih es' pr' hrec x hx
    · rw [if_neg hw] at h
      cases hrec : passLoop ws es with
      | none => rw [hrec] at h; simp at h
      | some pr' =>
        rw [hrec] at h
        simp only [Option.some.injEq] at h
        subst h
        intro x hx
        rcases List.mem_cons.mp hx with hx | hx
        · rw [hx]; exact hw
        · exact ih es pr' hrec x hx

theorem passLoop_countFin : ∀ (items : List Witem) (es : EventState)
    (pr : PassResult), passLoop items es = some pr →
    countFin pr.items = countFin items + pr.numFinished := by
  intro items
  induction items with
  | nil =>
    intro es pr h
    simp only [passLoop, Option.some.injEq] at h
    subst h
    simp [countFin]
  | cons w ws ih =>
    intro es pr h
    rw [passLoop] at h
    by_cases hw : w.state = .READY
    · rw [if_pos hw] at h
      cases hstep : stepItem w es with
      | none => rw [hstep] at h; simp at h
      | some p =>
        obtain ⟨w', es'⟩ := p
        rw [hstep] at h
        simp only at h
        cases hrec : passLoop ws es' with
        | none => rw [hrec] at h; simp at h
        | some pr' =>
          rw [hrec] at h
          simp only [Option.some.injEq] at h
          subst h
          have hih := ih es' pr' hrec
          simp only [countFin]
          have h0 : (if w.state = WIState.FINISHED then 1 else 0) = 0 := by
            rw [hw]; simp
          rw [h0]
          omega
    · rw [if_neg hw] at h
      cases hrec : passLoop ws es with
      | none => rw [hrec] at h; simp at h
      | some pr' =>
        rw [hrec] at h
        simp only [Option.some.injEq] at h
        subst h
        have hih := ih es pr' hrec
        simp only [countFin]
        omega

theorem passLoop_sumProg : ∀ (items : List Witem) (es : EventState)
    (pr : PassResult), passLoop items es = some pr →
    sumProg pr.items + pr.numBarriers + pr.numWaitEvents ≤ sumProg items := by
  intro items
  induction items with
  | nil =>
    intro es pr h
    simp only [passLoop, Option.some.injEq] at h
    subst h
    simp [sumProg]
  | cons w ws ih =>
    intro es pr h
    rw [passLoop] at h
    by_cases hw : w.state = .READY
    · rw [if_pos hw] at h
      cases hstep : stepItem w es with
      | none => rw [hstep] at h; simp at h
      | some p =>
        obtain ⟨w', es'⟩ := p
        rw [hstep] at h
        simp only at h
        cases hrec : passLoop ws es' with
        | none => rw [hrec] at h; simp at h
        | some pr' =>
          rw [hrec] at h
          simp only [Option.some.injEq] at h
          subst h
          have hih := ih es' pr' hrec
          simp only [sumProg]
          rcases stepItem_cases hstep with ⟨hp, hp', hs⟩ | ⟨ph, rest, hp, hp', hs⟩
          · simp only [hp, hp', hs]
            simp [sumProg]
            omega
          · simp only [hp, hp', hs, List.length_cons]
            cases hsp : ph.suspend <;> simp [Suspend.toState] <;> omega
    · rw [if_neg hw] at h
      cases hrec : passLoop ws es with
      | none => rw [hrec] at h; simp at h
      | some pr' =>
        rw [hrec] at h
        simp only [Option.some.injEq] at h
        subst h
        have hih := ih es pr' hrec
        simp only [sumProg]
        omega

theorem passLoop_all_finished : ∀ (items : List Witem) (es : EventState)
    (pr : PassResult), passLoop items es = some pr →
    (∀ w ∈ items, w.state = .READY ∨ w.state = .FINISHED) →
    pr.numBarriers = 0 → pr.numWaitEvents = 0 →
    ∀ w ∈ pr.items, w.state = .FINISHED := by
  intro items
  induction items with
  | nil =>
    intro es pr h _ _ _
    simp only [passLoop, Option.some.injEq] at h
    subst h
    simp
  | cons w ws ih =>
    intro es pr h hrf hb he
    rw [passLoop] at h
    by_cases hw : w.state = .READY
    · rw [if_pos hw] at h
      cases hstep : stepItem w es with
      | none => rw [hstep] at h; simp at h
      | some p =>
        obtain ⟨w', es'⟩ := p
        rw [hstep] at h
        simp only at h
        cases hrec : passLoop ws es' with
        | none => rw [hrec] at h; simp at h
        | some pr' =>
          rw [hrec] at h
          simp only [Option.some.injEq] at h
          subst h
          simp only at hb he
          have hb' : pr'.numBarriers = 0 := by omega
          have he' : pr'.numWaitEvents = 0 := by omega
          intro x hx
          rcases List.mem_cons.mp hx with hx | hx
          · subst hx
            rcases stepItem_state hstep with h' | h' | h'
            · exact h'
            · rw [h'] at hb; simp at hb
            · rw [h'] at he; simp at he
          · exact ih es' pr' hrec (fun y hy => hrf y (List.mem_cons_of_mem w hy))
              hb' he' x hx
    · rw [if_neg hw] at h
      cases hrec : passLoop ws es with
      | none => rw [hrec] at h; simp at h
      | some pr' =>
        rw [hrec] at h
        simp only [Option.some.injEq] at h
        subst h
        intro x hx
        rcases List.mem_cons.mp hx with hx | hx
        · subst hx
          rcases hrf x (List.mem_cons_self x ws) with h' | h'
          · exact absurd h' hw
          · exact h'
        · exact ih es pr' hrec (fun y hy => hrf y (List.mem_cons_of_mem w hy))
            hb he x hx

theorem countFin_le_length (l : List Witem) : countFin l ≤ l.length := by
  induction l with
  | nil => simp [countFin]
  | cons w ws ih =>
    simp only [countFin, List.length_cons]
    by_cases h : w.state = .FINISHED <;> simp [h] <;> omega

theorem all_fin_of_countFin_ge (l : List Witem)
    (h : l.length ≤ countFin l) : ∀ w ∈ l, w.state = .FINISHED := by
  induction l with
  | nil => simp
  | cons w ws ih =>
    simp only [countFin, List.length_cons] at h
    intro x hx
    have hle := countFin_le_length ws
    by_cases hf : w.state = .FINISHED
    · rcases List.mem_cons.mp hx with hx | hx
      · rw [hx]; exact hf
      · rw [if_pos hf] at h
        exact ih (by omega) x hx
    · simp [hf] at h
      omega

theorem countFin_eq_length_of_fin (l : List Witem)
    (h : ∀ w ∈ l, w.state = .FINISHED) : countFin l = l.length := by
  induction l with
  | nil => simp [countFin]
  | cons w ws ih =>
    simp only [countFin, List.length_cons]
    rw [if_pos (h w (List.mem_cons_self w ws)),
      ih (fun y hy => h y (List.mem_cons_of_mem w hy))]
    omega

theorem countFin_map_clearBarrier (l : List Witem) :
    countFin (l.map clearBarrier) = 0 := by
  induction l with
  | nil => simp [countFin]
  | cons w ws ih => simp [countFin, clearBarrier, ih]

theorem sumProg_map_clearBarrier (l : List Witem) :
    sumProg (l.map clearBarrier) = sumProg l := by
  induction l with
  | nil => simp [sumProg]
  | cons w ws ih => simp [sumProg, clearBarrier, ih]

theorem countFin_eq_zero_of_not_fin (l : List Witem)
    (h : ∀ w ∈ l, w.state ≠ .FINISHED) : countFin l = 0 := by
  induction l with
  | nil => simp [countFin]
  | cons w ws ih =>
    simp only [countFin]
    rw [if_neg (h w (List.mem_cons_self w ws)),
      ih (fun y hy => h y (List.mem_cons_of_mem w hy))]

theorem countFin_eq_zero_of_ready (l : List Witem)
    (h : ∀ w ∈ l, w.state = .READY) : countFin l = 0 :=
  countFin_eq_zero_of_not_fin l (fun w hw => by simp [h w hw])

theorem runIter_next_inv (g : WG) (nf : Nat) (g' : WG) (nf' : Nat)
    (hinv : Inv g nf) (hlt : nf < g.items.length)
    (hiter : runIter g nf = .next g' nf') :
    Inv g' nf' ∧ wgMeasure g' < wgMeasure g := by
  obtain ⟨hrf, hcf⟩ := hinv
  rw [runIter] at hiter
  cases hpass : passLoop g.items g.events with
  | none => rw [hpass] at hiter; cases hiter
  | some pr =>
    rw [hpass] at hiter
    simp only at hiter
    have hlen := passLoop_length g.items g.events pr hpass
    have hle := passLoop_counts_le g.items g.events pr hpass
    have hsum := passLoop_sumProg g.items g.events pr hpass
    have hcnt := passLoop_countFin g.items g.events pr hpass
    have ht1 : 1 ≤ g.items.length := by omega
    by_cases hb : pr.numBarriers = g.items.length
    · -- all items reached the barrier: release and continue
      rw [if_pos hb] at hiter
      have he0 : pr.numWaitEvents = 0 := by omega
      have hf0 : pr.numFinished = 0 := by omega
      rw [waitCheck, if_neg (by omega), if_neg (by omega)] at hiter
      simp only [IterOut.next.injEq] at hiter
      obtain ⟨hg, hnf⟩ := hiter
      subst hg hnf
      have hbar := passLoop_barrier_all g.items g.events pr hpass hb
      have hcf0 : countFin pr.items = 0 :=
        countFin_eq_zero_of_not_fin _ (fun w hw => by simp [hbar w hw])
      have hnf0 : nf = 0 := by omega
      refine ⟨⟨?_, ?_⟩, ?_⟩
      · intro w hw
        rcases List.mem_map.mp hw with ⟨x, _, hx⟩
        exact Or.inl (by rw [← hx]; rfl)
      · simp only
        rw [countFin_map_clearBarrier]
        omega
      · simp only [wgMeasure]
        simp only [List.length_map, sumProg_map_clearBarrier,
          countFin_map_clearBarrier]
        omega
    · rw [if_neg hb] at hiter
      by_cases hb0 : 0 < pr.numBarriers
      · rw [if_pos hb0] at hiter
        cases hiter
      · rw [if_neg hb0] at hiter
        have hbz : pr.numBarriers = 0 := by omega
        by_cases he : pr.numWaitEvents = g.items.length
        · -- all items reached the event wait: fulfill, release and continue
          rw [waitCheck, if_pos he] at hiter
          simp only [IterOut.next.injEq] at hiter
          obtain ⟨hg, hnf⟩ := hiter
          subst hg hnf
          have hf0 : pr.numFinished = 0 := by omega
          have hwait := passLoop_wait_all g.items g.events pr hpass he
          have hcf0 : countFin pr.items = 0 :=
            countFin_eq_zero_of_not_fin _ (fun w hw => by simp [hwait w hw])
          have hnf0 : nf = 0 := by omega
          refine ⟨⟨?_, ?_⟩, ?_⟩
          · intro w hw
            rcases List.mem_map.mp hw with ⟨x, _, hx⟩
            exact Or.inl (by rw [← hx]; rfl)
          · simp only
            rw [countFin_map_clearBarrier]
            omega
          · simp only [wgMeasure]
            simp only [List.length_map, sumProg_map_clearBarrier,
              countFin_map_clearBarrier]
            omega
        · rw [waitCheck, if_neg he] at hiter
          by_cases he0 : 0 < pr.numWaitEvents
          · rw [if_pos he0] at hiter
            cases hiter
          · rw [if_neg he0] at hiter
            have hez : pr.numWaitEvents = 0 := by omega
            simp only [IterOut.next.injEq] at hiter
            obtain ⟨hg, hnf⟩ := hiter
            subst hg hnf
            have hfin := passLoop_all_finished g.items g.events pr hpass hrf hbz hez
            have hcpr : countFin pr.items = pr.items.length :=
              countFin_eq_length_of_fin _ hfin
            refine ⟨⟨fun w hw => Or.inr (hfin w hw), ?_⟩, ?_⟩
            · simp only
              omega
            · simp only [wgMeasure]
              omega

theorem runIter_stop_kind (g : WG) (nf : Nat) (r : RunResult) (g' : WG)
    (hiter : runIter g nf = .stop r g') :
    r = .barrierDivergence ∨ r = .waitEventDivergence := by
  rw [runIter] at hiter
  cases hpass : passLoop g.items g.events with
  | none => rw [hpass] at hiter; cases hiter
  | some pr =>
    rw [hpass] at hiter
    simp only at hiter
    by_cases hb : pr.numBarriers = g.items.length
    · rw [if_pos hb, waitCheck] at hiter
      by_cases he : pr.numWaitEvents = g.items.length
      · rw [if_pos he] at hiter; cases hiter
      · rw [if_neg he] at hiter
        by_cases he0 : 0 < pr.numWaitEvents
        · rw [if_pos he0] at hiter
          simp only [IterOut.stop.injEq] at hiter
          exact Or.inr hiter.1.symm
        · rw [if_neg he0] at hiter; cases hiter
    · rw [if_neg hb] at hiter
      by_cases hb0 : 0 < pr.numBarriers
      · rw [if_pos hb0] at hiter
        simp only [IterOut.stop.injEq] at hiter
        exact Or.inl hiter.1.symm
      · rw [if_neg hb0, waitCheck] at hiter
        by_cases he : pr.numWaitEvents = g.items.length
        · rw [if_pos he] at hiter; cases hiter
        · rw [if_neg he] at hiter
          by_cases he0 : 0 < pr.numWaitEvents
          · rw [if_pos he0] at hiter
            simp only [IterOut.stop.injEq] at hiter
            exact Or.inr hiter.1.symm
          · rw [if_neg he0] at hiter; cases hiter

theorem runLoop_no_fuel_out : ∀ (fuel : Nat) (g : WG) (nf : Nat),
    Inv g nf → wgMeasure g < fuel → (runLoop fuel g nf).1 ≠ .outOfFuel := by
  intro fuel
  induction fuel with
  | zero => intro g nf _ hm; omega
  | succ fuel ih =>
    intro g nf hinv hm
    rw [runLoop]
    by_cases hlt : nf < g.items.length
    · rw [if_pos hlt]
      cases hiter : runIter g nf with
      | abort => simp
      | stop r g' =>
        simp only
        rcases runIter_stop_kind g nf r g' hiter with h | h <;> simp [h]
      | next g' nf' =>
        simp only
        obtain ⟨hinv', hm'⟩ := runIter_next_inv g nf g' nf' hinv hlt hiter
        exact ih g' nf' hinv' (by omega)
    · rw [if_neg hlt]
      simp

theorem runLoop_completed_fin : ∀ (fuel : Nat) (g : WG) (nf : Nat),
    Inv g nf → (runLoop fuel g nf).1 = .completed →
    ∀ w ∈ (runLoop fuel g nf).2.items, w.state = .FINISHED := by
  intro fuel
  induction fuel with
  | zero => intro g nf _ hc; cases hc
  | succ fuel ih =>
    intro g nf hinv hc
    rw [runLoop] at hc ⊢
    by_cases hlt : nf < g.items.length
    · rw [if_pos hlt] at hc ⊢
      cases hiter : runIter g nf with
      | abort => rw [hiter] at hc; cases hc
      | stop r g' =>
        rw [hiter] at hc
        simp only at hc
        rcases runIter_stop_kind g nf r g' hiter with h | h <;>
          rw [h] at hc <;> cases hc
      | next g' nf' =>
        rw [hiter] at hc
        simp only at hc ⊢
        obtain ⟨hinv', _⟩ := runIter_next_inv g nf g' nf' hinv hlt hiter
        exact ih g' nf' hinv' hc
    · rw [if_neg hlt] at hc ⊢
      simp only
      have := hinv.2
      exact all_fin_of_countFin_ge g.items (by omega)

theorem setAt_length (l : List Witem) : ∀ (n : Nat) (v : Witem),
    (setAt l n v).length = l.length := by
  induction l with
  | nil => intro n v; rfl
  | cons x xs ih =>
    intro n v
    cases n with
    | zero => rfl
    | succ n => simp [setAt, ih]

theorem setAt_get_ne (l : List Witem) : ∀ (n m : Nat) (v : Witem),
    m ≠ n → (setAt l n v)[m]? = l[m]? := by
  induction l with
  | nil => intro n m v _; rfl
  | cons x xs ih =>
    intro n m v hm
    cases n with
    | zero =>
      cases m with
      | zero => exact absurd rfl hm
      | succ m => simp [setAt]
    | succ n =>
      cases m with
      | zero => simp [setAt]
      | succ m => simp [setAt, ih n m v (by omega)]

theorem setAt_get_eq (l : List Witem) : ∀ (n : Nat) (v : Witem),
    n < l.length → (setAt l n v)[n]? = some v := by
  induction l with
  | nil => intro n v h; simp at h
  | cons x xs ih =>
    intro n v h
    cases n with
    | zero => simp [setAt]
    | succ n => simpa [setAt] using ih n v (by simpa using h)

theorem initFold_length (f : Nat → Nat → Nat → Witem) (gx gy : Nat) :
    ∀ (cs : List (Nat × Nat × Nat)) (arr : List Witem),
    (cs.foldl (fun a c => setAt a (linIdx gx gy c.1 c.2.1 c.2.2)
      (f c.1 c.2.1 c.2.2)) arr).length = arr.length := by
  intro cs
  induction cs with
  | nil => intro arr; rfl
  | cons c cs ih => intro arr; rw [List.foldl_cons, ih, setAt_length]

theorem initFold_get_untouched (f : Nat → Nat → Nat → Witem) (gx gy : Nat) :
    ∀ (cs : List (Nat × Nat × Nat)) (arr : List Witem) (p : Nat),
    (∀ c ∈ cs, linIdx gx gy c.1 c.2.1 c.2.2 ≠ p) →
    (cs.foldl (fun a c => setAt a (linIdx gx gy c.1 c.2.1 c.2.2)
      (f c.1 c.2.1 c.2.2)) arr)[p]? = arr[p]? := by
  intro cs
  induction cs with
  | nil => intro arr p _; rfl
  | cons c cs ih =>
    intro arr p hp
    rw [List.foldl_cons, ih _ _ (fun d hd => hp d (List.mem_cons_of_mem c hd)),
      setAt_get_ne _ _ _ _ (fun h => hp c (List.mem_cons_self c cs) h.symm)]

theorem linIdx_lt {gx gy gz i j k : Nat} (hi : i < gx) (hj : j < gy)
    (hk : k < gz) : linIdx gx gy i j k < gx * gy * gz := by
  have h1 : j + k * gy + 1 ≤ gy * gz := by
    have h2 : (k + 1) * gy ≤ gz * gy := Nat.mul_le_mul_right gy hk
    calc j + k * gy + 1 ≤ gy + k * gy := by omega
    _ = (k + 1) * gy := by ring
    _ ≤ gz * gy := h2
    _ = gy * gz := Nat.mul_comm gz gy
  have h3 : (j + k * gy + 1) * gx ≤ (gy * gz) * gx := Nat.mul_le_mul_right gx h1
  calc linIdx gx gy i j k = i + (j + k * gy) * gx := rfl
  _ < gx + (j + k * gy) * gx := by omega
  _ = (j + k * gy + 1) * gx := by ring
  _ ≤ (gy * gz) * gx := h3
  _ = gx * gy * gz := by ring

theorem linIdx_inj {gx gy i j k i' j' k' : Nat} (hi : i < gx) (hj : j < gy)
    (hi' : i' < gx) (hj' : j' < gy)
    (h : linIdx gx gy i j k = linIdx gx gy i' j' k') :
    i = i' ∧ j = j' ∧ k = k' := by
  unfold linIdx at h
  have hgx : 0 < gx := by omega
  have hgy : 0 < gy := by omega
  have hmod : i = i' := by
    have h1 := congrArg (· % gx) h
    simp only [Nat.add_mul_mod_self_right] at h1
    rwa [Nat.mod_eq_of_lt hi, Nat.mod_eq_of_lt hi'] at h1
  subst hmod
  have hm : j + k * gy = j' + k' * gy :=
    Nat.eq_of_mul_eq_mul_right hgx (by omega)
  have hmod2 : j = j' := by
    have h1 := congrArg (· % gy) hm
    simp only [Nat.add_mul_mod_self_right] at h1
    rwa [Nat.mod_eq_of_lt hj, Nat.mod_eq_of_lt hj'] at h1
  subst hmod2
  exact ⟨rfl, rfl, Nat.eq_of_mul_eq_mul_right hgy (by omega)⟩

theorem mem_coordList {gx gy gz i j k : Nat} :
    (i, j, k) ∈ coordList gx gy gz ↔ i < gx ∧ j < gy ∧ k < gz := by
  simp only [coordList, List.mem_flatMap, List.mem_map, List.mem_range]
  constructor
  · rintro ⟨k', hk', j', hj', i', hi', h⟩
    simp only [Prod.mk.injEq] at h
    obtain ⟨e1, e2, e3⟩ := h
    subst e1; subst e2; subst e3
    exact ⟨hi', hj', hk'⟩
  · rintro ⟨hi, hj, hk⟩
    exact ⟨k, hk, j, hj, i, hi, rfl⟩

theorem coordList_nodup (gx gy gz : Nat) : (coordList gx gy gz).Nodup := by
  rw [coordList, List.nodup_flatMap]
  refine ⟨?_, ?_⟩
  · intro k _
    rw [List.nodup_flatMap]
    refine ⟨?_, ?_⟩
    · intro j _
      exact (List.nodup_range gx).map (fun a b h => by injection h)
    · refine List.Pairwise.imp ?_ (List.nodup_range gy)
      intro j j' hjj x hx hx'
      rcases List.mem_map.mp hx with ⟨a, _, ha⟩
      rcases List.mem_map.mp hx' with ⟨b, _, hb⟩
      rw [← ha] at hb
      simp only [Prod.mk.injEq] at hb
      exact hjj hb.2.1.symm
  · refine List.Pairwise.imp ?_ (List.nodup_range gz)
    intro k k' hkk x hx hx'
    rcases List.mem_flatMap.mp hx with ⟨j, _, hj⟩
    rcases List.mem_flatMap.mp hx' with ⟨j', _, hj'⟩
    rcases List.mem_map.mp hj with ⟨a, _, ha⟩
    rcases List.mem_map.mp hj' with ⟨b, _, hb⟩
    rw [← ha] at hb
    simp only [Prod.mk.injEq] at hb
    exact hkk hb.2.2.symm

theorem initItems_get (f : Nat → Nat → Nat → Witem) {gx gy gz i j k : Nat}
    (hi : i < gx) (hj : j < gy) (hk : k < gz) :
    (initItems f gx gy gz)[linIdx gx gy i j k]? = some (f i j k) := by
  have hmem : (i, j, k) ∈ coordList gx gy gz := mem_coordList.mpr ⟨hi, hj, hk⟩
  obtain ⟨l1, l2, hsplit⟩ := List.append_of_mem hmem
  have hnd : (coordList gx gy gz).Nodup := coordList_nodup gx gy gz
  rw [hsplit] at hnd
  have hnotmem : (i, j, k) ∉ l2 :=
    (List.nodup_cons.mp ((List.sublist_append_right l1 _).nodup hnd)).1
  rw [initItems, hsplit, List.foldl_append, List.foldl_cons]
  have harrlen :
      (l1.foldl (fun a c => setAt a (linIdx gx gy c.1 c.2.1 c.2.2)
        (f c.1 c.2.1 c.2.2)) (List.replicate (gx * gy * gz) defaultItem)).length
      = gx * gy * gz := by
    rw [initFold_length, List.length_replicate]
  rw [initFold_get_untouched]
  · rw [setAt_get_eq]
    rw [harrlen]
    exact linIdx_lt hi hj hk
  · intro c hc hlin
    obtain ⟨ci, cj, ck⟩ := c
    have hcmem : (ci, cj, ck) ∈ coordList gx gy gz := by
      rw [hsplit]
      exact List.mem_append_right l1 (List.mem_cons_of_mem _ hc)
    obtain ⟨hci, hcj, hck⟩ := mem_coordList.mp hcmem
    obtain ⟨e1, e2, e3⟩ := linIdx_inj hci hcj hi hj hlin
    subst e1; subst e2; subst e3
    exact hnotmem hc

theorem initItems_length (f : Nat → Nat → Nat → Witem) (gx gy gz : Nat) :
    (initItems f gx gy gz).length = gx * gy * gz := by
  rw [initItems, initFold_length, List.length_replicate]

theorem findPending_eq_none {c : AsyncCopy} :
    ∀ {pend : List (Nat × List AsyncCopy)},
    (∀ kv ∈ pend, c ∉ kv.2) → findPending pend c = none := by
  intro pend
  induction pend with
  | nil => intro _; rfl
  | cons kv rest ih =>
    intro h
    obtain ⟨k, l⟩ := kv
    rw [findPending, if_neg, ih (fun kv hkv => h kv (List.mem_cons_of_mem _ hkv))]
    simp only [List.any_eq_true, not_exists, not_and]
    intro d hd
    rw [Bool.not_eq_true]
    rw [← Bool.not_eq_true, copyEq_iff]
    intro he
    exact h (k, l) (List.mem_cons_self _ _) (he ▸ hd)

theorem findPending_eq_some {c : AsyncCopy} {h0 : Nat} {l0 : List AsyncCopy} :
    ∀ {pend : List (Nat × List AsyncCopy)},
    (h0, l0) ∈ pend → c ∈ l0 →
    (∀ kv ∈ pend, c ∈ kv.2 → kv.1 = h0) →
    findPending pend c = some h0 := by
  intro pend
  induction pend with
  | nil => intro hmem _ _; simp at hmem
  | cons kv rest ih =>
    intro hmem hc huniq
    obtain ⟨k, l⟩ := kv
    by_cases hany : l.any (fun d => copyEq d c) = true
    · rw [findPending, if_pos hany]
      rcases List.any_eq_true.mp hany with ⟨d, hd, hdc⟩
      rw [copyEq_iff] at hdc
      subst hdc
      exact congrArg some (huniq (k, l) (List.mem_cons_self _ _) hd)
    · rw [findPending, if_neg hany]
      rcases List.mem_cons.mp hmem with hmem | hmem
      · exfalso
        apply hany
        rcases Prod.mk.injEq .. ▸ hmem with ⟨e1, e2⟩
        exact List.any_eq_true.mpr ⟨c, e2 ▸ hc, copyEq_iff.mpr rfl⟩
      · exact ih hmem hc (fun kv hkv => huniq kv (List.mem_cons_of_mem _ hkv))

theorem applyOp_nextEvent (s : EventState × Mem × Mem) (op : WGOp) :
    s.1.nextEvent ≤ (applyOp s op).1.1.nextEvent ∧
    (∀ h, (applyOp s op).2 = some h →
      h = s.1.nextEvent ∧ (applyOp s op).1.1.nextEvent = h + 1) := by
  cases op with
  | opCopy c ev =>
    rw [applyOp]
    cases hf : findPending s.1.pendingEvents c with
    | some h' =>
      rw [async_copy, hf]
      simp [hf]
    | none =>
      rw [async_copy, hf]
      simp [hf]
  | opWait ev =>
    rw [applyOp]
    cases hw : wait_event s.1 ev with
    | none => simp
    | some es' =>
      have hnext : es'.nextEvent = s.1.nextEvent := by
        rw [wait_event] at hw
        cases hm : mapFind s.1.pendingEvents ev with
        | none => rw [hm] at hw; cases hw
        | some l =>
          rw [hm] at hw
          simp only [Option.some.injEq] at hw
          rw [← hw]
      simp [hnext]
  | opFulfill =>
    rw [applyOp]
    simp

theorem runOps_handles : ∀ (ops : List WGOp) (s : EventState × Mem × Mem),
    (∀ h ∈ (runOps s ops).2,
      s.1.nextEvent ≤ h ∧ h < (runOps s ops).1.1.nextEvent) ∧
    s.1.nextEvent ≤ (runOps s ops).1.1.nextEvent ∧
    List.Pairwise (· < ·) (runOps s ops).2 := by
  intro ops
  induction ops with
  | nil =>
    intro s
    refine ⟨?_, Nat.le_refl _, ?_⟩ <;> simp [runOps]
  | cons op ops ih =>
    intro s
    obtain ⟨hop1, hop2⟩ := applyOp_nextEvent s op
    obtain ⟨hb, hm, hp⟩ := ih (applyOp s op).1
    simp only [runOps]
    refine ⟨?_, by omega, ?_⟩
    · intro h hh
      rw [List.mem_append] at hh
      rcases hh with hh | hh
      · cases ha : (applyOp s op).2 with
        | none => rw [ha] at hh; simp at hh
        | some h0 =>
          rw [ha] at hh
          simp only [Option.toList_some, List.mem_singleton] at hh
          subst hh
          obtain ⟨he, hn⟩ := hop2 h ha
          have := hb
          omega
      · have := hb h hh
        omega
    · cases ha : (applyOp s op).2 with
      | none => simpa using hp
      | some h0 =>
        simp only [Option.toList_some, List.singleton_append]
        refine List.Pairwise.cons ?_ hp
        intro y hy
        obtain ⟨he, hn⟩ := hop2 h0 ha
        have := hb y hy
        omega

/-- Claim C10: the caller-supplied event argument of async_copy has no effect:
for every registry state and descriptor, async_copy returns the same handle
and produces the same registry and counter state for any two values of the
event argument, because the parameter is overwritten before use. -/
theorem async_copy_ignores_event_arg (s : EventState) (c : AsyncCopy)
    (e1 e2 : Nat) : async_copy s c e1 = async_copy s c e2 := rfl

/-- Claim C5: wait_event on a handle absent from the pending registry is the
fatal assertion (none), never a silent creation; on a present handle it adds
the handle to waitEvents, leaving the pending map and the counter unchanged,
and the addition is idempotent (re-awaiting yields the same state, and on a
sorted set the handle occupies exactly one entry). -/
theorem wait_event_contract (s : EventState) (h : Nat) :
    (mapFind s.pendingEvents h = none → wait_event s h = none) ∧
    (∀ l, mapFind s.pendingEvents h = some l →
      ∃ s', wait_event s h = some s' ∧
        s'.pendingEvents = s.pendingEvents ∧
        s'.nextEvent = s.nextEvent ∧
        h ∈ s'.waitEvents ∧
        wait_event s' h = some s' ∧
        (List.Pairwise (· < ·) s.waitEvents →
          List.count h s'.waitEvents = 1)) := by
  constructor
  · intro hn
    rw [wait_event, hn]
  · intro l hl
    refine ⟨{ s with waitEvents := setInsert s.waitEvents h }, ?_, rfl, rfl,
      mem_setInsert_self s.waitEvents h, ?_, ?_⟩
    · rw [wait_event, hl]
    · rw [wait_event]
      simp only
      rw [hl, setInsert_idem]
    · intro hsort
      have hp := setInsert_pairwise h hsort
      have hnd : (setInsert s.waitEvents h).Nodup :=
        hp.imp (fun hlt => Nat.ne_of_lt hlt)
      exact List.count_eq_one_of_mem hnd (mem_setInsert_self s.waitEvents h)

/-- Claim C3: an async-copy request whose descriptor equals (in all five
fields) one already stored under a unique pending handle returns that handle
and leaves the whole registry state unchanged; a request differing from every
pending descriptor returns a fresh handle equal to the counter, bumps the
counter, stores a singleton list under the new handle and leaves every other
binding and the wait set unchanged. -/
theorem async_copy_dedup (s : EventState) (c : AsyncCopy) (ev : Nat) :
    (∀ h0 l0, (h0, l0) ∈ s.pendingEvents → c ∈ l0 →
      (∀ kv ∈ s.pendingEvents, c ∈ kv.2 → kv.1 = h0) →
      async_copy s c ev = (h0, s)) ∧
    ((∀ kv ∈ s.pendingEvents, c ∉ kv.2) →
      (async_copy s c ev).1 = s.nextEvent ∧
      (async_copy s c ev).2.nextEvent = s.nextEvent + 1 ∧
      mapFind (async_copy s c ev).2.pendingEvents s.nextEvent = some [c] ∧
      (∀ h, h ≠ s.nextEvent →
        mapFind (async_copy s c ev).2.pendingEvents h =
          mapFind s.pendingEvents h) ∧
      (async_copy s c ev).2.waitEvents = s.waitEvents) := by
  constructor
  · intro h0 l0 hmem hc huniq
    rw [async_copy, findPending_eq_some hmem hc huniq]
  · intro hfresh
    rw [async_copy, findPending_eq_none hfresh]
    refine ⟨rfl, rfl, ?_, ?_, rfl⟩
    · exact mapFind_mapInsert_self s.pendingEvents s.nextEvent [c]
    · intro h hne
      exact mapFind_mapInsert_ne s.pendingEvents s.nextEvent h [c] hne

/-- Claim C7: the event counter starts at 1 at construction; a request that
does not deduplicate returns the current counter value and bumps the counter;
and over any lifetime trace of registry operations from the initial state the
allocated handles are strictly increasing, so no handle value is ever
assigned to two different copy sets. -/
theorem event_handle_monotone :
    initEvents.nextEvent = 1 ∧
    (∀ (s : EventState) (c : AsyncCopy) (ev : Nat),
      findPending s.pendingEvents c = none →
      (async_copy s c ev).1 = s.nextEvent ∧
      (async_copy s c ev).2.nextEvent = s.nextEvent + 1) ∧
    (∀ (ops : List WGOp) (gm lm : Mem),
      List.Pairwise (· < ·) (runOps (initEvents, gm, lm) ops).2) := by
  refine ⟨rfl, ?_, ?_⟩
  · intro s c ev hf
    rw [async_copy, hf]
    exact ⟨rfl, rfl⟩
  · intro ops gm lm
    exact (runOps_handles ops (initEvents, gm, lm)).2.2

/-- Witness for C7: on a concrete trace (allocate, dedup, await, fulfill,
allocate again) the fresh-allocation facts hold at the initial state and the
allocated handles 1 and 2 are strictly increasing. -/
theorem event_handle_monotone_witness :
    findPending initEvents.pendingEvents copy0 = none ∧
    (async_copy initEvents copy0 7).1 = initEvents.nextEvent ∧
    (async_copy initEvents copy0 7).2.nextEvent = initEvents.nextEvent + 1 ∧
    List.Pairwise (· < ·) (runOps (initEvents, gmem0, lmem0)
      [.opCopy copy0 0, .opCopy copy0 5, .opWait 1, .opFulfill,
        .opCopy copy0 2]).2 := by
  have h := event_handle_monotone
  have h2 := h.2.1 initEvents copy0 7 rfl
  exact ⟨rfl, h2.1, h2.2,
    h.2.2 [.opCopy copy0 0, .opCopy copy0 5, .opWait 1, .opFulfill,
      .opCopy copy0 2] gmem0 lmem0⟩

/-- Witness for C5: at a state with handle 1 pending, awaiting 1 succeeds,
is idempotent and leaves one entry; at the empty registry awaiting 1 is the
fatal assertion. -/
theorem wait_event_contract_witness :
    wait_event ⟨[], [], 1⟩ 1 = none ∧
    mapFind (EventState.mk [(1, [copy0])] [] 2).pendingEvents 1 = some [copy0] ∧
    (∃ s', wait_event ⟨[(1, [copy0])], [], 2⟩ 1 = some s' ∧
      s'.pendingEvents = (EventState.mk [(1, [copy0])] [] 2).pendingEvents ∧
      s'.nextEvent = (EventState.mk [(1, [copy0])] [] 2).nextEvent ∧
      1 ∈ s'.waitEvents ∧
      wait_event s' 1 = some s' ∧
      (List.Pairwise (· < ·) (EventState.mk [(1, [copy0])] [] 2).waitEvents →
        List.count 1 s'.waitEvents = 1)) := by
  refine ⟨(wait_event_contract ⟨[], [], 1⟩ 1).1 rfl, rfl, ?_⟩
  exact (wait_event_contract ⟨[(1, [copy0])], [] , 2⟩ 1).2 [copy0] rfl

/-- Witness for C3: at a state holding copy0 under the unique handle 1, a
second identical request returns 1 and changes nothing; at the initial state
the same request is fresh and allocates handle 1. -/
theorem async_copy_dedup_witness :
    async_copy ⟨[(1, [copy0])], [], 2⟩ copy0 9 = (1, ⟨[(1, [copy0])], [], 2⟩) ∧
    (async_copy initEvents copy0 9).1 = initEvents.nextEvent ∧
    (async_copy initEvents copy0 9).2.nextEvent = initEvents.nextEvent + 1 ∧
    mapFind (async_copy initEvents copy0 9).2.pendingEvents
      initEvents.nextEvent = some [copy0] := by
  have h1 := (async_copy_dedup ⟨[(1, [copy0])], [], 2⟩ copy0 9).1 1 [copy0]
    (by simp) (by simp) (by decide)
  have h2 := (async_copy_dedup initEvents copy0 9).2 (by simp [initEvents])
  exact ⟨h1, h2.1, h2.2.1, h2.2.2.1⟩

/-- Claim C1: in any pass of run(), if the barrier tally equals the item
count, every work-item is released back to READY and the outer loop
continues; if it is strictly between 0 and the item count, run() terminates
immediately with the barrier-divergence fault and the items are left exactly
as the pass produced them (none released). -/
theorem barrier_all_or_nothing (g : WG) (nf : Nat) (pr : PassResult)
    (hpass : passLoop g.items g.events = some pr) :
    (pr.numBarriers = g.items.length →
      ∃ g', runIter g nf = .next g' (nf + pr.numFinished) ∧
        ∀ w ∈ g'.items, w.state = .READY) ∧
    (0 < pr.numBarriers → pr.numBarriers < g.items.length →
      runIter g nf = .stop .barrierDivergence
        ⟨pr.items, pr.events, g.globalMem, g.localMem⟩ ∧
      ∀ fuel, nf < g.items.length → runLoop (fuel + 1) g nf =
        (.barrierDivergence, ⟨pr.items, pr.events, g.globalMem, g.localMem⟩)) := by
  have hle := passLoop_counts_le g.items g.events pr hpass
  constructor
  · intro hb
    rw [runIter]
    rw [hpass]
    simp only
    rw [if_pos hb]
    by_cases ht : g.items.length = 0
    · have he : pr.numWaitEvents = 0 := by omega
      rw [waitCheck, if_pos (by omega)]
      refine ⟨_, rfl, ?_⟩
      intro w hw
      rcases List.mem_map.mp hw with ⟨x, _, hx⟩
      rw [← hx]
      rfl
    · have he : pr.numWaitEvents = 0 := by omega
      rw [waitCheck, if_neg (by omega), if_neg (by omega)]
      refine ⟨_, rfl, ?_⟩
      intro w hw
      rcases List.mem_map.mp hw with ⟨x, _, hx⟩
      rw [← hx]
      rfl
  · intro hb0 hblt
    have hstop : runIter g nf = .stop .barrierDivergence
        ⟨pr.items, pr.events, g.globalMem, g.localMem⟩ := by
      rw [runIter]
      rw [hpass]
      simp only
      rw [if_neg (by omega), if_pos hb0]
    refine ⟨hstop, ?_⟩
    intro fuel hnf
    rw [runLoop, if_pos hnf, hstop]

/-- Claim C2, amended: in any pass, if the event-wait tally equals the item
count, group fulfillment runs for every handle in waitEvents (each such
handle is afterwards absent from the pending registry, given the map key
invariant), waitEvents is cleared, every item is released to READY and the
loop continues; if the tally is strictly between 0 and the item count, run()
terminates immediately with a divergence fault — the event-wait one when no
item entered BARRIER in the same pass, the barrier one otherwise — and no
fulfillment or release occurs (registry, memories and items are exactly as
the pass left them). -/
theorem wait_all_or_nothing (g : WG) (nf : Nat) (pr : PassResult)
    (hpass : passLoop g.items g.events = some pr) :
    (pr.numWaitEvents = g.items.length →
      ∃ g', runIter g nf = .next g' (nf + pr.numFinished) ∧
        (∀ w ∈ g'.items, w.state = .READY) ∧
        g'.events.waitEvents = [] ∧
        g'.events.pendingEvents =
          (fulfillEvents pr.events.pendingEvents g.globalMem g.localMem
            pr.events.waitEvents).1 ∧
        (sortedKeys pr.events.pendingEvents →
          ∀ h ∈ pr.events.waitEvents,
            mapFind g'.events.pendingEvents h = none ∧
            wait_event g'.events h = none)) ∧
    (0 < pr.numWaitEvents → pr.numWaitEvents < g.items.length →
      runIter g nf = .stop
        (if 0 < pr.numBarriers then .barrierDivergence
          else .waitEventDivergence)
        ⟨pr.items, pr.events, g.globalMem, g.localMem⟩ ∧
      ∀ fuel, nf < g.items.length → runLoop (fuel + 1) g nf =
        ((if 0 < pr.numBarriers then RunResult.barrierDivergence
          else RunResult.waitEventDivergence),
          ⟨pr.items, pr.events, g.globalMem, g.localMem⟩)) := by
  have hle := passLoop_counts_le g.items g.events pr hpass
  constructor
  · intro he
    have hnext : ∃ items0 : List Witem, runIter g nf = .next
        ⟨items0.map clearBarrier,
          ⟨(fulfillEvents pr.events.pendingEvents g.globalMem g.localMem
            pr.events.waitEvents).1, [], pr.events.nextEvent⟩,
          (fulfillEvents pr.events.pendingEvents g.globalMem g.localMem
            pr.events.waitEvents).2.1,
          (fulfillEvents pr.events.pendingEvents g.globalMem g.localMem
            pr.events.waitEvents).2.2⟩
        (nf + pr.numFinished) := by
      rw [runIter]
      rw [hpass]
      simp only
      by_cases ht : g.items.length = 0
      · have hb : pr.numBarriers = 0 := by omega
        rw [if_pos (by omega), waitCheck, if_pos (by omega)]
        exact ⟨pr.items.map clearBarrier, rfl⟩
      · have hb : pr.numBarriers = 0 := by omega
        rw [if_neg (by omega), if_neg (by omega), waitCheck, if_pos he]
        exact ⟨pr.items, rfl⟩
    obtain ⟨items0, hit⟩ := hnext
    refine ⟨_, hit, ?_, rfl, rfl, ?_⟩
    · intro w hw
      simp only at hw
      rcases List.mem_map.mp hw with ⟨x, _, hx⟩
      rw [← hx]
      rfl
    · intro hsk h hh
      have herased := fulfillEvents_erased pr.events.waitEvents
        pr.events.pendingEvents g.globalMem g.localMem hsk h hh
      refine ⟨herased, ?_⟩
      rw [wait_event]
      simp only
      rw [herased]
  · intro he0 helt
    have hstop : runIter g nf = .stop
        (if 0 < pr.numBarriers then .barrierDivergence
          else .waitEventDivergence)
        ⟨pr.items, pr.events, g.globalMem, g.localMem⟩ := by
      rw [runIter]
      rw [hpass]
      simp only
      by_cases hb0 : 0 < pr.numBarriers
      · rw [if_neg (by omega), if_pos hb0, if_pos hb0]
      · rw [if_neg (by omega), if_neg hb0, waitCheck, if_neg (by omega),
          if_pos he0, if_neg hb0]
    refine ⟨hstop, ?_⟩
    intro fuel hnf
    rw [runLoop, if_pos hnf, hstop]

/-- Counterexample to claim C2 as stated: in gMixed one item reaches a
barrier, one reaches an event wait and one finishes in the same pass, so the
event-wait tally 1 is strictly between 0 and 3, yet run() terminates with
the barrier-divergence fault, not the event-wait-divergence one. -/
theorem wait_all_or_nothing_cex :
    (Option.map PassResult.numWaitEvents
      (passLoop gMixed.items gMixed.events)) = some 1 ∧
    gMixed.items.length = 3 ∧
    (run gMixed).1 = .barrierDivergence ∧
    (run gMixed).1 ≠ .waitEventDivergence := by
  exact ⟨rfl, rfl, rfl, by decide⟩

/-- Witness for C1: a single-item group whose item reaches a barrier; the
pass tallies one barrier, equal to the item count, and the iteration releases
the item back to READY and continues. -/
theorem barrier_all_or_nothing_witness :
    passLoop gOneBarrier.items gOneBarrier.events =
      some ⟨[⟨.BARRIER, [⟨[], .done⟩]⟩], 1, 0, 0, initEvents⟩ ∧
    (1 : Nat) = gOneBarrier.items.length ∧
    ∃ g', runIter gOneBarrier 0 = .next g' 0 ∧
      ∀ w ∈ g'.items, w.state = .READY := by
  refine ⟨rfl, rfl, ?_⟩
  exact (barrier_all_or_nothing gOneBarrier 0
    ⟨[⟨.BARRIER, [⟨[], .done⟩]⟩], 1, 0, 0, initEvents⟩ rfl).1 rfl

/-- Witness for C2 (amended): in gWaitDiv the event-wait tally 1 lies
strictly between 0 and 2 and no item entered BARRIER, so the iteration stops
with the event-wait-divergence fault and the unreleased pass state. -/
theorem wait_all_or_nothing_witness :
    passLoop gWaitDiv.items gWaitDiv.events =
      some ⟨[⟨.WAIT_EVENT, []⟩, ⟨.FINISHED, []⟩], 0, 1, 1, initEvents⟩ ∧
    runIter gWaitDiv 0 = .stop
      (if 0 < (0 : Nat) then .barrierDivergence else .waitEventDivergence)
      ⟨[⟨.WAIT_EVENT, []⟩, ⟨.FINISHED, []⟩], initEvents,
        gWaitDiv.globalMem, gWaitDiv.localMem⟩ := by
  refine ⟨rfl, ?_⟩
  exact ((wait_all_or_nothing gWaitDiv 0
    ⟨[⟨.WAIT_EVENT, []⟩, ⟨.FINISHED, []⟩], 0, 1, 1, initEvents⟩ rfl).2
    (by decide) (by decide)).1

/-- Claim C4: during group fulfillment every awaited handle's descriptors are
executed in registration order with the spaces selected by direction
(GLOBAL_TO_LOCAL reads global and writes local, otherwise the reverse),
copying exactly sizeBytes contiguously from srcAddress to destAddress; each
handle is erased from the pending registry (so re-awaiting it is the fatal
assertion) and waitEvents is cleared afterward. -/
theorem fulfillment_correct :
    (∀ (pend : List (Nat × List AsyncCopy)) (gm lm : Mem) (ws : List Nat),
      sortedKeys pend → ∀ h ∈ ws,
        mapFind (fulfillEvents pend gm lm ws).1 h = none) ∧
    (∀ (h : Nat) (d : AsyncCopy) (gm lm : Mem),
      d.type = .globalToLocal →
      (∀ i, i < d.size →
        (fulfillEvents [(h, [d])] gm lm [h]).2.2 (d.dest + i) = gm (d.src + i)) ∧
      (∀ x, x < d.dest ∨ d.dest + d.size ≤ x →
        (fulfillEvents [(h, [d])] gm lm [h]).2.2 x = lm x) ∧
      (fulfillEvents [(h, [d])] gm lm [h]).2.1 = gm) ∧
    (∀ (h : Nat) (d : AsyncCopy) (gm lm : Mem),
      d.type = .localToGlobal →
      (∀ i, i < d.size →
        (fulfillEvents [(h, [d])] gm lm [h]).2.1 (d.dest + i) = lm (d.src + i)) ∧
      (fulfillEvents [(h, [d])] gm lm [h]).2.2 = lm) ∧
    (∀ (h : Nat) (d1 d2 : AsyncCopy) (gm lm : Mem),
      d1.type = .globalToLocal → d2.type = .globalToLocal →
      ∀ i, i < d2.size →
        (fulfillEvents [(h, [d1, d2])] gm lm [h]).2.2 (d2.dest + i) =
          gm (d2.src + i)) ∧
    (∀ (t : Nat) (items : List Witem) (es : EventState) (gm lm : Mem)
        (nf : Nat), sortedKeys es.pendingEvents →
      ∃ g', waitCheck t t items es gm lm nf = .next g' nf ∧
        g'.events.waitEvents = [] ∧
        ∀ h ∈ es.waitEvents,
          mapFind g'.events.pendingEvents h = none ∧
          wait_event g'.events h = none) := by
  have hred : ∀ (h : Nat) (d : AsyncCopy) (gm lm : Mem),
      fulfillEvents [(h, [d])] gm lm [h] =
        ([], (execCopy gm lm d).1, (execCopy gm lm d).2) := by
    intro h d gm lm
    simp [fulfillEvents, mapFind, mapErase, execCopies]
  refine ⟨?_, ?_, ?_, ?_, ?_⟩
  · intro pend gm lm ws hsk h hh
    exact fulfillEvents_erased ws pend gm lm hsk h hh
  · intro h d gm lm hdir
    rw [hred]
    exact ⟨fun i hi => execCopy_g2l_at gm lm d hdir i hi,
      fun x hx => execCopy_g2l_out gm lm d hdir x hx,
      execCopy_g2l_global gm lm d hdir⟩
  · intro h d gm lm hdir
    rw [hred]
    exact ⟨fun i hi => execCopy_l2g_at gm lm d hdir i hi,
      execCopy_l2g_local gm lm d hdir⟩
  · intro h d1 d2 gm lm hd1 hd2 i hi
    have hred2 : fulfillEvents [(h, [d1, d2])] gm lm [h] =
        ([], (execCopy (execCopy gm lm d1).1 (execCopy gm lm d1).2 d2).1,
          (execCopy (execCopy gm lm d1).1 (execCopy gm lm d1).2 d2).2) := by
      simp [fulfillEvents, mapFind, mapErase, execCopies]
    rw [hred2]
    rw [execCopy_g2l_at _ _ d2 hd2 i hi, execCopy_g2l_global gm lm d1 hd1]
  · intro t items es gm lm nf hsk
    rw [waitCheck, if_pos rfl]
    refine ⟨_, rfl, rfl, ?_⟩
    intro h hh
    have herased := fulfillEvents_erased es.waitEvents es.pendingEvents
      gm lm hsk h hh
    refine ⟨herased, ?_⟩
    rw [wait_event]
    simp only
    rw [herased]

/-- Witness for C4: fulfilling the spec scenario descriptor copy0 (16 bytes,
global 0 to local 100) under handle 1 copies byte 5, leaves local byte 200
and the global space untouched, erases handle 1, and the event-wait
convergence branch clears waitEvents and makes re-awaiting fatal. -/
theorem fulfillment_correct_witness :
    (fulfillEvents [(1, [copy0])] gmem0 lmem0 [1]).2.2 (copy0.dest + 5) =
      gmem0 (copy0.src + 5) ∧
    (fulfillEvents [(1, [copy0])] gmem0 lmem0 [1]).2.2 200 = lmem0 200 ∧
    (fulfillEvents [(1, [copy0])] gmem0 lmem0 [1]).2.1 = gmem0 ∧
    mapFind (fulfillEvents [(1, [copy0])] gmem0 lmem0 [1]).1 1 = none ∧
    (∃ g', waitCheck 2 2 [itemCopyAwait] ⟨[(1, [copy0])], [1], 2⟩
        gmem0 lmem0 0 = .next g' 0 ∧
      g'.events.waitEvents = [] ∧
      ∀ h ∈ ([1] : List Nat),
        mapFind g'.events.pendingEvents h = none ∧
        wait_event g'.events h = none) := by
  have hb := fulfillment_correct.2.1 1 copy0 gmem0 lmem0 rfl
  have ha := fulfillment_correct.1 [(1, [copy0])] gmem0 lmem0 [1]
    (by simp [sortedKeys]) 1 (by simp)
  have he := fulfillment_correct.2.2.2.2 2 [itemCopyAwait]
    ⟨[(1, [copy0])], [1], 2⟩ gmem0 lmem0 0 (by simp [sortedKeys])
  exact ⟨hb.1 5 (by decide), hb.2.1 200 (by decide), hb.2.2, ha, he⟩

/-- Claim C6: the constructor stores exactly one work-item per coordinate,
at linear index i + (j + k*groupSize.y)*groupSize.x, in an array of length
groupSize.x*groupSize.y*groupSize.z; a pass visits items in list (ascending
linear index) order, skipping an item that is not READY at visit time
unchanged and with no effect on the tallies, and stepping a READY item until
its state leaves READY. -/
theorem linear_indexing (f : Nat → Nat → Nat → Witem) (gx gy gz i j k : Nat) :
    (i < gx → j < gy → k < gz →
      (initItems f gx gy gz)[linIdx gx gy i j k]? = some (f i j k)) ∧
    (initItems f gx gy gz).length = gx * gy * gz ∧
    (∀ (w : Witem) (ws : List Witem) (es : EventState),
      w.state ≠ .READY →
      passLoop (w :: ws) es = (passLoop ws es).map fun pr =>
        ⟨w :: pr.items, pr.numBarriers, pr.numWaitEvents, pr.numFinished,
          pr.events⟩) ∧
    (∀ (w : Witem) (ws : List Witem) (es : EventState) (pr : PassResult),
      w.state = .READY → passLoop (w :: ws) es = some pr →
      ∃ w' rest, pr.items = w' :: rest ∧ w'.state ≠ .READY) := by
  refine ⟨?_, initItems_length f gx gy gz, ?_, ?_⟩
  · intro hi hj hk
    exact initItems_get f hi hj hk
  · intro w ws es hw
    rw [passLoop, if_neg hw]
    cases hrec : passLoop ws es with
    | none => rfl
    | some pr => rfl
  · intro w ws es pr hw hp
    rw [passLoop, if_pos hw] at hp
    cases hstep : stepItem w es with
    | none => rw [hstep] at hp; cases hp
    | some p =>
      obtain ⟨w', es'⟩ := p
      rw [hstep] at hp
      simp only at hp
      cases hrec : passLoop ws es' with
      | none => rw [hrec] at hp; cases hp
      | some pr' =>
        rw [hrec] at hp
        simp only [Option.some.injEq] at hp
        subst hp
        exact ⟨w', pr'.items, rfl, stepItem_ne_ready hstep⟩

/-- Witness for C6: in a 2x2x2 group, coordinate (1,0,1) lands at linear
index 5 and the array has 8 slots; a FINISHED item prepended to a pass is
skipped with no tally effect, and a stepped READY item exits non-READY. -/
theorem linear_indexing_witness :
    (initItems coordItem 2 2 2)[linIdx 2 2 1 0 1]? = some (coordItem 1 0 1) ∧
    (initItems coordItem 2 2 2).length = 2 * 2 * 2 ∧
    passLoop (⟨.FINISHED, []⟩ :: gOneBarrier.items) initEvents =
      (passLoop gOneBarrier.items initEvents).map (fun pr =>
        ⟨⟨.FINISHED, []⟩ :: pr.items, pr.numBarriers, pr.numWaitEvents,
          pr.numFinished, pr.events⟩) ∧
    (∃ w' rest,
      (PassResult.mk [⟨.BARRIER, [⟨[], .done⟩]⟩] 1 0 0 initEvents).items =
        w' :: rest ∧ w'.state ≠ .READY) := by
  refine ⟨(linear_indexing coordItem 2 2 2 1 0 1).1 (by decide) (by decide)
      (by decide),
    (linear_indexing coordItem 2 2 2 1 0 1).2.1,
    (linear_indexing coordItem 2 2 2 1 0 1).2.2.1 ⟨.FINISHED, []⟩
      gOneBarrier.items initEvents (by decide),
    (linear_indexing coordItem 2 2 2 1 0 1).2.2.2 ⟨.READY, [⟨[], .atBarrier⟩,
      ⟨[], .done⟩]⟩ [] initEvents _ rfl rfl⟩

/-- Claim C8: the observable outcome of run() (the printed diagnostic
embedded as RunResult) distinguishes barrier divergence, event-wait
divergence and the invalid-handle assertion from normal completion: the four
concrete scenarios produce the four pairwise distinct outcomes. -/
theorem fault_distinguishable :
    (run gComplete).1 = .completed ∧
    (run gBarDiv).1 = .barrierDivergence ∧
    (run gWaitDiv).1 = .waitEventDivergence ∧
    (run gBadHandle).1 = .assertFailure ∧
    RunResult.barrierDivergence ≠ RunResult.completed ∧
    RunResult.waitEventDivergence ≠ RunResult.completed ∧
    RunResult.assertFailure ≠ RunResult.completed ∧
    RunResult.barrierDivergence ≠ RunResult.waitEventDivergence ∧
    RunResult.barrierDivergence ≠ RunResult.assertFailure ∧
    RunResult.waitEventDivergence ≠ RunResult.assertFailure := by
  exact ⟨rfl, rfl, rfl, rfl, by decide, by decide, by decide, by decide,
    by decide, by decide⟩

/-- Claim C9, amended: a work-group with no items completes run()
immediately with no fault; from any all-READY start run() terminates (the
provided fuel is never exhausted); and whenever it reports normal completion
every item is FINISHED.  (A kernel whose every step makes progress can still
diverge, so completion cannot be unconditional; see the counterexample.) -/
theorem run_terminates :
    (∀ (es : EventState) (gm lm : Mem),
      run ⟨[], es, gm, lm⟩ = (.completed, ⟨[], es, gm, lm⟩)) ∧
    (∀ g : WG, (∀ w ∈ g.items, w.state = .READY) →
      (run g).1 ≠ .outOfFuel ∧
      ((run g).1 = .completed →
        ∀ w ∈ (run g).2.items, w.state = .FINISHED)) := by
  constructor
  · intro es gm lm
    rfl
  · intro g hready
    have hinv : Inv g 0 := ⟨fun w hw => Or.inl (hready w hw),
      (countFin_eq_zero_of_ready g.items hready).symm⟩
    have hcl := countFin_le_length g.items
    constructor
    · refine runLoop_no_fuel_out (runFuel g) g 0 hinv ?_
      rw [runFuel, wgMeasure]
      omega
    · exact runLoop_completed_fin (runFuel g) g 0 hinv

/-- Witness for C9 (amended): gComplete starts all READY, its run does not
exhaust fuel, completes, and every item ends FINISHED. -/
theorem run_terminates_witness :
    (∀ w ∈ gComplete.items, w.state = .READY) ∧
    (run gComplete).1 ≠ .outOfFuel ∧
    (run gComplete).1 = .completed ∧
    (∀ w ∈ (run gComplete).2.items, w.state = .FINISHED) := by
  have h := run_terminates.2 gComplete (by decide)
  exact ⟨by decide, h.1, rfl, h.2 rfl⟩

/-- Counterexample to claim C9 as stated: in gBarDiv every step makes
progress (each slice consumes script or finishes), yet run() reports a
barrier-divergence fault and leaves an unfinished item, so a progressing
kernel does not guarantee fault-free completion. -/
theorem run_terminates_cex :
    (run gBarDiv).1 = .barrierDivergence ∧
    (run gBarDiv).1 ≠ .completed ∧
    ∃ w ∈ (run gBarDiv).2.items, w.state ≠ .FINISHED := by
  exact ⟨rfl, by decide, by decide⟩

end WorkGroup
